import Mathlib

/-!
Shallow embedding of `topo_order_commits.py` and verification of the
specification claims about it.

The Python program reads a git repository's on-disk storage, rebuilds the
commit ancestry graph reachable from the local branch heads, topologically
sorts it (Kahn's algorithm on a deep copy of the graph) and prints the
order with branch annotations and discontinuity separators.

Modelling conventions:
* Python `dict`s (insertion ordered, unique keys) become association lists
  `List (String × _)`; lookup takes the first matching entry, exactly like
  a dict whose keys are unique.
* Python `set`s of strings become `Finset String`; where the code iterates
  a set (`list(s)`, `' '.join(s)`) the model iterates `setList`, fixing
  one admissible iteration order (CPython's order is unspecified).
* Mutation of a `CommitNode` field becomes a functional update of the
  association list (`updNode`); `copy.deepcopy` of the graph is the
  identity on the immutable value, and the sorter threads its private
  copy explicitly (see `topo_sortTracked`).
* `sys.exit(1)` paths are modelled with `Except ProgExit`, recording the
  message written to stderr (if any) and the exit code.
* The two unbounded loops (`make_commit_graph`'s traversal and
  `topo_sort`'s queue loop) are written with an explicit fuel argument so
  that every definition is executable; the fuel passed by the callers is
  the exact loop-measure bound, and the correctness proofs show the fuel
  never runs out before the queue/stack empties.
-/

/-- `CommitNode` from the source: identity hash plus parent and child
hash sets (Python sets → `Finset String`). -/
structure CommitNode where
  commit_hash : String
  parents : Finset String
  children : Finset String
deriving DecidableEq

/-- The commit graph: Python's insertion-ordered `dict` from hash to
`CommitNode`, as an association list. -/
abbrev Graph := List (String × CommitNode)

/-- The keys of the graph, in insertion order (`for hash in graph`). -/
def keysOf (g : Graph) : List String := g.map Prod.fst

/-- Dictionary lookup `graph[h]`.  On a missing key Python raises; the
model returns an inert empty node (the theorems' hypotheses keep all
accesses on present keys). -/
def lookupNode (g : Graph) (h : String) : CommitNode :=
  match g.find? (fun e => e.1 = h) with
  | some e => e.2
  | none => ⟨h, ∅, ∅⟩

/-- In-place mutation `graph[k].field = ...` as a functional update of the
entry with key `k`. -/
def updNode (g : Graph) (k : String) (f : CommitNode → CommitNode) : Graph :=
  g.map (fun e => if e.1 = k then (e.1, f e.2) else e)

/-- Iteration over a Python `set` (`list(s)`, `for x in s`, `' '.join(s)`):
the model fixes one admissible enumeration of the unordered set (CPython's
set order is unspecified); `Finset.sort` is the executable choice. -/
def setList (s : Finset String) : List String :=
  Quot.liftOn s.val (fun l => l.insertionSort (· ≤ ·)) (fun l1 l2 h =>
    List.eq_of_perm_of_sorted
      ((List.perm_insertionSort _ l1).trans
        (h.trans (List.perm_insertionSort _ l2).symm))
      (List.sorted_insertionSort _ l1) (List.sorted_insertionSort _ l2))

/-- Total number of parent edges still present, summed over the keys.
This is the decreasing part of the loop measure of `topo_sort`'s queue
loop and supplies its fuel. -/
def edgeSum (g : Graph) : Nat :=
  ((keysOf g).map (fun k => (lookupNode g k).parents.card)).sum

/-- The body of the `for phash in curr_parents` loop of `topo_sort`:
remove the mutual edge between `curr` and each parent in `ps`, and append
to the pending-queue `enq` every parent whose children set becomes empty.
Python's `set.remove` raises on a missing element where `Finset.erase`
is a no-op; the loop invariant (`KahnInv`) shows the removed element is
always present, so the two agree on every run `topo_sort` performs. -/
def removeEdges (curr : String) (ps : List String) (W : Graph)
    (enq : List String) : Graph × List String :=
  match ps with
  | [] => (W, enq)
  | p :: rest =>
    let W1 := updNode W curr (fun n => { n with parents := n.parents.erase p })
    let W2 := updNode W1 p (fun n => { n with children := n.children.erase curr })
    let enq1 := if (lookupNode W2 p).children = ∅ then enq ++ [p] else enq
    removeEdges curr rest W2 enq1

/-- The `while queue` loop of `topo_sort` (Kahn's algorithm): dequeue the
head, append it to the result, consume its parent edges and enqueue newly
childless parents.  `fuel` is a strict bound on the loop measure
`edgeSum W + queue.length`, which decreases every iteration, so the
`0`-fuel branch is never taken by `topo_sort`. -/
def kahnLoop : Nat → Graph → List String → List String → List String
  | 0, _, _, result => result
  | fuel + 1, W, queue, result =>
    match queue with
    | [] => result
    | curr :: rest =>
      let step := removeEdges curr (setList (lookupNode W curr).parents) W []
      kahnLoop fuel step.1 (rest ++ step.2) (result ++ [curr])

/-- `topo_sort` from the source.  It works on a private copy of the graph
(the identity on the immutable value here), seeds a FIFO queue with the
childless nodes in dictionary order, runs Kahn's algorithm, and finally
compares the result length with the node count: a mismatch means a cycle,
on which the code writes a diagnostic and exits — modelled as `none`. -/
def initQueue (g : Graph) : List String :=
  (keysOf g).filter (fun h => (lookupNode g h).children = ∅)

def kahnResult (g : Graph) : List String :=
  kahnLoop (edgeSum g + (initQueue g).length) g (initQueue g) []

def topo_sort (g : Graph) : Option (List String) :=
  if (kahnResult g).length = g.length then some (kahnResult g) else none

/-- A small well-formed acyclic graph used by the witnesses: commit `a`
whose only parent is the root commit `b`. -/
def gEx : Graph :=
  [("a", ⟨"a", {"b"}, ∅⟩), ("b", ⟨"b", ∅, {"a"}⟩)]

example : topo_sort gEx = some ["a", "b"] := by decide

/-! ### Basic lemmas about the dictionary and set models -/

theorem setList_coe (s : Finset String) :
    (setList s : Multiset String) = s.val := by
  rcases s with ⟨val, nd⟩
  induction val using Quot.inductionOn with
  | h l => exact Quot.sound (List.perm_insertionSort _ l)

theorem mem_setList {a : String} {s : Finset String} :
    a ∈ setList s ↔ a ∈ s := by
  rw [← Multiset.mem_coe, setList_coe]
  exact Iff.rfl

theorem setList_nodup (s : Finset String) : (setList s).Nodup := by
  have h := s.nodup
  rwa [← Multiset.coe_nodup, setList_coe]

theorem setList_length (s : Finset String) :
    (setList s).length = s.card := by
  have : Multiset.card (setList s : Multiset String) = Multiset.card s.val := by
    rw [setList_coe]
  simpa using this

theorem setList_empty : setList (∅ : Finset String) = [] := rfl

theorem lookupNode_cons (a : String) (n : CommitNode) (t : Graph) (x : String) :
    lookupNode ((a, n) :: t) x = if a = x then n else lookupNode t x := by
  by_cases h : a = x <;> simp [lookupNode, List.find?, h]

theorem updNode_cons (a : String) (n : CommitNode) (t : Graph) (k : String)
    (f : CommitNode → CommitNode) :
    updNode ((a, n) :: t) k f =
      (if a = k then (a, f n) else (a, n)) :: updNode t k f := by
  by_cases h : a = k <;> simp [updNode, h]

theorem keysOf_cons (a : String) (n : CommitNode) (t : Graph) :
    keysOf ((a, n) :: t) = a :: keysOf t := rfl

theorem keysOf_updNode (g : Graph) (k : String) (f : CommitNode → CommitNode) :
    keysOf (updNode g k f) = keysOf g := by
  induction g with
  | nil => rfl
  | cons e t ih =>
    obtain ⟨a, n⟩ := e
    rw [updNode_cons]
    by_cases h : a = k <;> simp [h, keysOf_cons, ih]

theorem lookupNode_updNode_ne (g : Graph) (k x : String)
    (f : CommitNode → CommitNode) (hx : x ≠ k) :
    lookupNode (updNode g k f) x = lookupNode g x := by
  induction g with
  | nil => rfl
  | cons e t ih =>
    obtain ⟨a, n⟩ := e
    rw [updNode_cons]
    by_cases h : a = k
    · have hax : ¬ a = x := fun hc => hx (hc ▸ h : x = k)
      rw [if_pos h, lookupNode_cons, lookupNode_cons, if_neg hax, if_neg hax, ih]
    · rw [if_neg h, lookupNode_cons, lookupNode_cons]
      by_cases hax : a = x
      · rw [if_pos hax, if_pos hax]
      · rw [if_neg hax, if_neg hax, ih]

theorem lookupNode_updNode_self (g : Graph) (k : String)
    (f : CommitNode → CommitNode) (hk : k ∈ keysOf g) :
    lookupNode (updNode g k f) k = f (lookupNode g k) := by
  induction g with
  | nil => simp [keysOf] at hk
  | cons e t ih =>
    obtain ⟨a, n⟩ := e
    rw [updNode_cons]
    by_cases h : a = k
    · rw [if_pos h, lookupNode_cons, lookupNode_cons, if_pos h, if_pos h]
    · have hk' : k ∈ keysOf t := by
        rcases (by simpa [keysOf_cons] using hk : k = a ∨ k ∈ keysOf t) with hc | hc
        · exact absurd hc.symm h
        · exact hc
      rw [if_neg h, lookupNode_cons, lookupNode_cons, if_neg h, if_neg h, ih hk']

theorem removeEdges_nil (curr : String) (W : Graph) (enq : List String) :
    removeEdges curr [] W enq = (W, enq) := rfl

theorem removeEdges_cons (curr p : String) (rest : List String) (W : Graph)
    (enq : List String) :
    removeEdges curr (p :: rest) W enq =
      removeEdges curr rest
        (updNode (updNode W curr
            (fun n => { n with parents := n.parents.erase p })) p
          (fun n => { n with children := n.children.erase curr }))
        (if (lookupNode (updNode (updNode W curr
            (fun n => { n with parents := n.parents.erase p })) p
          (fun n => { n with children := n.children.erase curr })) p).children = ∅
         then enq ++ [p] else enq) := rfl

theorem keysOf_removeEdges (curr : String) (ps : List String) :
    ∀ (W : Graph) (enq : List String),
      keysOf (removeEdges curr ps W enq).1 = keysOf W := by
  induction ps with
  | nil => intro W enq; rfl
  | cons p rest ih =>
    intro W enq
    rw [removeEdges_cons, ih, keysOf_updNode, keysOf_updNode]

theorem erase_sdiff_toFinset (s : Finset String) (p : String) (t : List String) :
    (s.erase p) \ t.toFinset = s \ (p :: t).toFinset := by
  ext a
  simp only [Finset.mem_sdiff, Finset.mem_erase, List.mem_toFinset, List.mem_cons]
  tauto

/-- Effect of the inner edge-removal loop on the working graph: `curr`'s
parents lose everything in `ps`, each `p ∈ ps` loses `curr` as a child,
and exactly the parents whose children set empties out are appended (in
`ps` order) to the queue. -/
theorem removeEdges_spec (curr : String) : ∀ (ps : List String) (W : Graph)
    (enq : List String), ps.Nodup → curr ∈ keysOf W →
    (∀ p ∈ ps, p ∈ keysOf W) →
    (∀ x, lookupNode (removeEdges curr ps W enq).1 x =
      ⟨(lookupNode W x).commit_hash,
       if x = curr then (lookupNode W x).parents \ ps.toFinset
         else (lookupNode W x).parents,
       if x ∈ ps then (lookupNode W x).children.erase curr
         else (lookupNode W x).children⟩) ∧
    (removeEdges curr ps W enq).2 =
      enq ++ ps.filter (fun q => (lookupNode W q).children.erase curr = ∅) := by
  intro ps
  induction ps with
  | nil =>
    intro W enq _ _ _
    constructor
    · intro x
      simp [removeEdges_nil]
    · simp [removeEdges_nil]
  | cons p rest ih =>
    intro W enq hnd hcurr hsub
    have hp : p ∈ keysOf W := hsub p (List.mem_cons_self p rest)
    have hrest : ∀ q ∈ rest, q ∈ keysOf W :=
      fun q hq => hsub q (List.mem_cons_of_mem p hq)
    have hndr : rest.Nodup := (List.nodup_cons.mp hnd).2
    have hpr : p ∉ rest := (List.nodup_cons.mp hnd).1
    rw [removeEdges_cons]
    set W2 := updNode (updNode W curr
        (fun n => { n with parents := n.parents.erase p })) p
      (fun n => { n with children := n.children.erase curr }) with hW2def
    have hkeys2 : keysOf W2 = keysOf W := by
      rw [hW2def, keysOf_updNode, keysOf_updNode]
    have hW2 : ∀ x, lookupNode W2 x =
        ⟨(lookupNode W x).commit_hash,
         if x = curr then (lookupNode W x).parents.erase p
           else (lookupNode W x).parents,
         if x = p then (lookupNode W x).children.erase curr
           else (lookupNode W x).children⟩ := by
      intro x
      by_cases hxp : x = p
      · have hx1 : p ∈ keysOf (updNode W curr
            (fun n => { n with parents := n.parents.erase p })) := by
          rw [keysOf_updNode]; exact hp
        rw [hxp, hW2def, lookupNode_updNode_self _ p _ hx1]
        by_cases hxc : p = curr
        · rw [hxc, lookupNode_updNode_self W curr _ hcurr]
          simp [hxc]
        · rw [lookupNode_updNode_ne W curr p _ hxc]
          simp [hxc]
      · rw [hW2def, lookupNode_updNode_ne _ p x _ hxp]
        by_cases hxc : x = curr
        · rw [hxc, lookupNode_updNode_self W curr _ hcurr]
          have hcp : ¬ curr = p := fun hc => hxp (hxc.trans hc)
          simp [hcp]
        · rw [lookupNode_updNode_ne W curr x _ hxc]
          simp [hxp, hxc]
    have hcurr2 : curr ∈ keysOf W2 := by rw [hkeys2]; exact hcurr
    have hrest2 : ∀ q ∈ rest, q ∈ keysOf W2 :=
      fun q hq => by rw [hkeys2]; exact hrest q hq
    obtain ⟨ihl, ihe⟩ := ih W2 (if (lookupNode W2 p).children = ∅
      then enq ++ [p] else enq) hndr hcurr2 hrest2
    constructor
    · intro x
      rw [ihl x, hW2 x]
      simp only [CommitNode.mk.injEq]
      refine ⟨trivial, ?_, ?_⟩
      · by_cases hxc : x = curr
        · simp only [if_pos hxc, erase_sdiff_toFinset]
        · simp only [if_neg hxc]
      · by_cases hxr : x ∈ rest
        · have hxp : x ≠ p := fun hc => hpr (hc ▸ hxr)
          simp only [if_pos hxr, if_neg hxp,
            if_pos (List.mem_cons_of_mem p hxr)]
        · by_cases hxp : x = p
          · simp only [if_neg hxr, if_pos hxp,
              if_pos (List.mem_cons.mpr (Or.inl hxp))]
          · have hxpr : x ∉ p :: rest :=
              fun hc => (List.mem_cons.mp hc).elim hxp hxr
            simp only [if_neg hxr, if_neg hxp, if_neg hxpr]
    · rw [ihe]
      have hfc : rest.filter
          (fun q => (lookupNode W2 q).children.erase curr = ∅) =
          rest.filter
          (fun q => (lookupNode W q).children.erase curr = ∅) := by
        apply List.filter_congr
        intro q hq
        have hqp : q ≠ p := fun hc => hpr (hc ▸ hq)
        rw [hW2 q]
        simp [hqp]
      rw [hfc, hW2 p, List.filter_cons]
      by_cases hpe : (lookupNode W p).children.erase curr = ∅
      · simp [hpe]
      · simp [hpe]

theorem setList_toFinset (s : Finset String) : (setList s).toFinset = s := by
  ext a
  simp only [List.mem_toFinset]
  exact mem_setList

theorem sum_map_congr (l : List String) (f g : String → Nat)
    (h : ∀ x ∈ l, f x = g x) : (l.map f).sum = (l.map g).sum := by
  induction l with
  | nil => rfl
  | cons a t ih =>
    simp only [List.map_cons, List.sum_cons]
    rw [h a (List.mem_cons_self a t),
      ih (fun x hx => h x (List.mem_cons_of_mem a hx))]

theorem sum_map_update (l : List String) (c : String) (f g : String → Nat)
    (hl : l.Nodup) (hc : c ∈ l) (h : ∀ x ∈ l, x ≠ c → g x = f x) :
    (l.map g).sum + f c = (l.map f).sum + g c := by
  induction l with
  | nil => exact absurd hc (List.not_mem_nil c)
  | cons a t ih =>
    have hnd := List.nodup_cons.mp hl
    rcases List.mem_cons.mp hc with hac | hct
    · have hteq : (t.map g).sum = (t.map f).sum := by
        apply sum_map_congr
        intro x hx
        exact h x (List.mem_cons_of_mem a hx)
          (fun hxc => hnd.1 (by rw [← hac, ← hxc]; exact hx))
      simp only [List.map_cons, List.sum_cons]
      rw [hteq, ← hac]
      omega
    · have hac : a ≠ c := fun hc' => hnd.1 (hc' ▸ hct)
      have hga : g a = f a := h a (List.mem_cons_self a t) hac
      have := ih hnd.2 hct (fun x hx hxc => h x (List.mem_cons_of_mem a hx) hxc)
      simp only [List.map_cons, List.sum_cons]
      omega

/-- One dequeue step of the queue loop does not increase
`edgeSum + |queue|`: the `|parents curr|` removed edges pay for at most
that many enqueuesRemoved, and `curr`'s parents set empties out. -/
theorem kahnStep_measure (W : Graph) (curr : String)
    (hN : (keysOf W).Nodup) (hcurr : curr ∈ keysOf W)
    (hsub : ∀ p ∈ setList (lookupNode W curr).parents, p ∈ keysOf W) :
    edgeSum (removeEdges curr (setList (lookupNode W curr).parents) W []).1 +
      (removeEdges curr (setList (lookupNode W curr).parents) W []).2.length ≤
      edgeSum W := by
  obtain ⟨hlook, henq⟩ := removeEdges_spec curr
    (setList (lookupNode W curr).parents) W [] (setList_nodup _) hcurr hsub
  have hkeys : keysOf (removeEdges curr
      (setList (lookupNode W curr).parents) W []).1 = keysOf W :=
    keysOf_removeEdges _ _ _ _
  have hsum : edgeSum (removeEdges curr
        (setList (lookupNode W curr).parents) W []).1 +
      (lookupNode W curr).parents.card = edgeSum W + 0 := by
    unfold edgeSum
    rw [hkeys]
    have hupd := sum_map_update (keysOf W) curr
      (fun k => (lookupNode W k).parents.card)
      (fun k => (lookupNode (removeEdges curr
        (setList (lookupNode W curr).parents) W []).1 k).parents.card)
      hN hcurr
      (fun x _ hxc => by simp [hlook x, hxc])
    simp only at hupd
    rw [hupd]
    simp [hlook curr, setList_toFinset]
  have hlen : (removeEdges curr
      (setList (lookupNode W curr).parents) W []).2.length ≤
      (lookupNode W curr).parents.card := by
    rw [henq]
    simp only [List.nil_append]
    calc (List.filter _ (setList (lookupNode W curr).parents)).length ≤
        (setList (lookupNode W curr).parents).length :=
          List.length_filter_le _ _
      _ = (lookupNode W curr).parents.card := setList_length _
  omega

/-! ### Well-formedness and acyclicity of a commit graph -/

/-- The data-model invariant of §3 of the specification: unique keys,
parent and child sets point inside the graph, and the parent/child
relation is a mutual inverse. -/
def WellFormed (g : Graph) : Prop :=
  (keysOf g).Nodup ∧
  (∀ c ∈ keysOf g, ∀ p ∈ (lookupNode g c).parents, p ∈ keysOf g) ∧
  (∀ c ∈ keysOf g, ∀ k ∈ (lookupNode g c).children, k ∈ keysOf g) ∧
  (∀ c ∈ keysOf g, ∀ p ∈ keysOf g,
    (p ∈ (lookupNode g c).parents ↔ c ∈ (lookupNode g p).children))

/-- `childRel g c p` holds when `c` is a child of `p` inside `g` (the
"descends from" edge along which the sorter must order `c` before `p`). -/
def childRel (g : Graph) (c p : String) : Prop :=
  p ∈ keysOf g ∧ c ∈ (lookupNode g p).children

/-- Acyclicity of the ancestry graph: well-foundedness of the child
relation (no directed cycle can be descended forever). -/
def Acyclic (g : Graph) : Prop := WellFounded (childRel g)

/-- A numeric rank that strictly increases along the child-to-parent
edges witnesses acyclicity. -/
theorem acyclic_of_rank (g : Graph) (f : String → Nat)
    (h : ∀ c p, childRel g c p → f c < f p) : Acyclic g :=
  Subrelation.wf (fun hcp => h _ _ hcp) (InvImage.wf f Nat.lt_wfRel.wf)

theorem wf_not_self {r : String → String → Prop} (h : WellFounded r)
    (a : String) : ¬ r a a := by
  intro hra
  obtain ⟨m, hm, hmin⟩ := h.has_min {a} ⟨a, rfl⟩
  rcases hm with rfl
  exact hmin m rfl hra

/-- Two nodes that are mutually parent and child of each other form a
cycle: such a graph is not acyclic. -/
theorem not_acyclic_of_two_cycle (g : Graph) (a b : String)
    (hab : childRel g a b) (hba : childRel g b a) : ¬ Acyclic g := by
  intro hwf
  obtain ⟨m, hm, hmin⟩ := hwf.has_min {a, b} ⟨a, Or.inl rfl⟩
  rcases hm with rfl | rfl
  · exact hmin b (Or.inr rfl) hba
  · exact hmin a (Or.inl rfl) hab

/-- Loop invariant of `topo_sort`'s queue loop relating the working copy
`W`, the FIFO queue `Q` and the result prefix `R` to the caller's graph
`g`: processed nodes have lost all their edges, the queue holds exactly
the unprocessed nodes whose children are all processed, and every
processed node appears after all of its children. -/
structure KahnInv (g W : Graph) (Q R : List String) : Prop where
  keysEq : keysOf W = keysOf g
  nodupR : R.Nodup
  subR : ∀ x ∈ R, x ∈ keysOf g
  nodupQ : Q.Nodup
  subQ : ∀ x ∈ Q, x ∈ keysOf g
  disjQR : ∀ x ∈ Q, x ∉ R
  parW : ∀ x ∈ keysOf g, (lookupNode W x).parents =
    if x ∈ R then ∅ else (lookupNode g x).parents
  childW : ∀ x ∈ keysOf g, (lookupNode W x).children =
    (lookupNode g x).children.filter (fun c => c ∉ R)
  queueChar : ∀ x ∈ keysOf g, x ∉ R →
    ((∀ c ∈ (lookupNode g x).children, c ∈ R) ↔ x ∈ Q)
  noSelfQ : ∀ x ∈ Q, x ∉ (lookupNode g x).parents
  prec : ∀ p ∈ R, ∀ c ∈ (lookupNode g p).children,
    ∃ i j, i < j ∧ R.get? i = some c ∧ R.get? j = some p

/-- Every graph-child of a node already in the result is itself in the
result (consequence of the position invariant). -/
theorem KahnInv.child_mem_R {g W : Graph} {Q R : List String}
    (inv : KahnInv g W Q R) {p : String} (hp : p ∈ R) {c : String}
    (hc : c ∈ (lookupNode g p).children) : c ∈ R := by
  obtain ⟨i, j, _, hgc, _⟩ := inv.prec p hp c hc
  exact List.get?_mem hgc

/-- One iteration of the queue loop preserves the invariant. -/
theorem KahnInv.step {g : Graph} (hwf : WellFormed g) {W : Graph}
    {curr : String} {rest R : List String}
    (inv : KahnInv g W (curr :: rest) R) :
    KahnInv g (removeEdges curr (setList (lookupNode W curr).parents) W []).1
      (rest ++ (removeEdges curr (setList (lookupNode W curr).parents) W []).2)
      (R ++ [curr]) := by
  obtain ⟨hndK, hclosP, hclosC, hinv⟩ := hwf
  have hcurrQ : curr ∈ curr :: rest := List.mem_cons_self curr rest
  have hcurrK : curr ∈ keysOf g := inv.subQ curr hcurrQ
  have hcurrR : curr ∉ R := inv.disjQR curr hcurrQ
  have hcurrNotRest : curr ∉ rest := (List.nodup_cons.mp inv.nodupQ).1
  have hndRest : rest.Nodup := (List.nodup_cons.mp inv.nodupQ).2
  have hparcurr : (lookupNode W curr).parents = (lookupNode g curr).parents := by
    rw [inv.parW curr hcurrK, if_neg hcurrR]
  have hpsmem : ∀ p, p ∈ setList (lookupNode W curr).parents ↔
      p ∈ (lookupNode g curr).parents := by
    intro p
    rw [mem_setList, hparcurr]
  have hpsK : ∀ p ∈ setList (lookupNode W curr).parents, p ∈ keysOf g :=
    fun p hp => hclosP curr hcurrK p ((hpsmem p).mp hp)
  have hcurrKW : curr ∈ keysOf W := by rw [inv.keysEq]; exact hcurrK
  have hpsKW : ∀ p ∈ setList (lookupNode W curr).parents, p ∈ keysOf W :=
    fun p hp => by rw [inv.keysEq]; exact hpsK p hp
  obtain ⟨hlook, henq⟩ := removeEdges_spec curr
    (setList (lookupNode W curr).parents) W [] (setList_nodup _) hcurrKW hpsKW
  have hcurrchild : ∀ c ∈ (lookupNode g curr).children, c ∈ R :=
    (inv.queueChar curr hcurrK hcurrR).mpr hcurrQ
  have hnoselfcurr : curr ∉ (lookupNode g curr).parents :=
    inv.noSelfQ curr hcurrQ
  -- characterization of the enqueued nodes in terms of the caller graph
  have henqc : ∀ x, x ∈ (removeEdges curr
      (setList (lookupNode W curr).parents) W []).2 ↔
      (x ∈ (lookupNode g curr).parents ∧
        ∀ c ∈ (lookupNode g x).children, c ∈ R ∨ c = curr) := by
    intro x
    rw [henq]
    simp only [List.nil_append, List.mem_filter, decide_eq_true_eq]
    constructor
    · rintro ⟨hxps, hxe⟩
      have hxK : x ∈ keysOf g := hpsK x hxps
      refine ⟨(hpsmem x).mp hxps, ?_⟩
      intro c hcx
      rw [inv.childW x hxK] at hxe
      by_contra hcon
      push_neg at hcon
      have : c ∈ ((lookupNode g x).children.filter
          (fun c => c ∉ R)).erase curr :=
        Finset.mem_erase.mpr ⟨hcon.2, Finset.mem_filter.mpr ⟨hcx, hcon.1⟩⟩
      rw [hxe] at this
      exact absurd this (Finset.not_mem_empty c)
    · rintro ⟨hxp, hxall⟩
      have hxps : x ∈ setList (lookupNode W curr).parents := (hpsmem x).mpr hxp
      have hxK : x ∈ keysOf g := hpsK x hxps
      refine ⟨hxps, ?_⟩
      rw [inv.childW x hxK]
      ext c
      simp only [Finset.mem_erase, Finset.mem_filter, Finset.not_mem_empty,
        iff_false]
      rintro ⟨hcne, hcx, hcnR⟩
      rcases hxall c hcx with hcR | hceq
      · exact hcnR hcR
      · exact hcne hceq
  have hEnqPs : ∀ x ∈ (removeEdges curr
      (setList (lookupNode W curr).parents) W []).2,
      x ∈ (lookupNode g curr).parents :=
    fun x hx => ((henqc x).mp hx).1
  have hEnqNotR : ∀ x ∈ (removeEdges curr
      (setList (lookupNode W curr).parents) W []).2, x ∉ R := by
    intro x hx hxR
    have hxp : x ∈ (lookupNode g curr).parents := hEnqPs x hx
    have hxK : x ∈ keysOf g := hclosP curr hcurrK x hxp
    have hcx : curr ∈ (lookupNode g x).children := (hinv curr hcurrK x hxK).mp hxp
    exact hcurrR (inv.child_mem_R hxR hcx)
  have hEnqNeCurr : ∀ x ∈ (removeEdges curr
      (setList (lookupNode W curr).parents) W []).2, x ≠ curr := by
    intro x hx hxc
    exact hnoselfcurr (hxc ▸ hEnqPs x hx)
  have hEnqNotRest : ∀ x ∈ (removeEdges curr
      (setList (lookupNode W curr).parents) W []).2, x ∉ rest := by
    intro x hx hxrest
    have hxQ : x ∈ curr :: rest := List.mem_cons_of_mem curr hxrest
    have hxK : x ∈ keysOf g := inv.subQ x hxQ
    have hxR : x ∉ R := inv.disjQR x hxQ
    have hall : ∀ c ∈ (lookupNode g x).children, c ∈ R :=
      (inv.queueChar x hxK hxR).mpr hxQ
    have hxp : x ∈ (lookupNode g curr).parents := hEnqPs x hx
    have hcx : curr ∈ (lookupNode g x).children :=
      (hinv curr hcurrK x (hclosP curr hcurrK x hxp)).mp hxp
    exact hcurrR (hall curr hcx)
  have hEnqNodup : (removeEdges curr
      (setList (lookupNode W curr).parents) W []).2.Nodup := by
    rw [henq]
    simpa using (setList_nodup (lookupNode W curr).parents).filter _
  have hmemRcurr : ∀ x, x ∈ R ++ [curr] ↔ x ∈ R ∨ x = curr := by
    intro x
    simp [List.mem_append]
  refine ⟨?_, ?_, ?_, ?_, ?_, ?_, ?_, ?_, ?_, ?_, ?_⟩
  · rw [keysOf_removeEdges, inv.keysEq]
  · rw [List.nodup_append]
    exact ⟨inv.nodupR, List.nodup_singleton curr,
      fun a haR hac => hcurrR ((List.mem_singleton.mp hac) ▸ haR)⟩
  · intro x hx
    rcases (hmemRcurr x).mp hx with hxR | hxc
    · exact inv.subR x hxR
    · exact hxc ▸ hcurrK
  · rw [List.nodup_append]
    exact ⟨hndRest, hEnqNodup, fun a haRest hae => hEnqNotRest a hae haRest⟩
  · intro x hx
    rcases List.mem_append.mp hx with hxr | hxe
    · exact inv.subQ x (List.mem_cons_of_mem curr hxr)
    · exact hclosP curr hcurrK x (hEnqPs x hxe)
  · intro x hx hxR
    rcases List.mem_append.mp hx with hxr | hxe
    · rcases (hmemRcurr x).mp hxR with hxR' | hxc
      · exact inv.disjQR x (List.mem_cons_of_mem curr hxr) hxR'
      · exact hcurrNotRest (hxc ▸ hxr)
    · rcases (hmemRcurr x).mp hxR with hxR' | hxc
      · exact hEnqNotR x hxe hxR'
      · exact hEnqNeCurr x hxe hxc
  · intro x hxK
    rw [hlook x]
    simp only
    by_cases hxc : x = curr
    · rw [if_pos hxc, if_pos ((hmemRcurr x).mpr (Or.inr hxc))]
      rw [hxc, setList_toFinset]
      simp
    · rw [if_neg hxc, inv.parW x hxK]
      by_cases hxR : x ∈ R
      · rw [if_pos hxR, if_pos ((hmemRcurr x).mpr (Or.inl hxR))]
      · rw [if_neg hxR, if_neg (fun hc => ((hmemRcurr x).mp hc).elim hxR hxc)]
  · intro x hxK
    rw [hlook x]
    simp only
    by_cases hxps : x ∈ setList (lookupNode W curr).parents
    · rw [if_pos hxps, inv.childW x hxK]
      ext a
      simp only [Finset.mem_erase, Finset.mem_filter, hmemRcurr a]
      constructor
      · rintro ⟨hane, hax, hanR⟩
        exact ⟨hax, fun hc => hc.elim hanR hane⟩
      · rintro ⟨hax, han⟩
        exact ⟨fun hc => han (Or.inr hc), hax, fun hc => han (Or.inl hc)⟩
    · rw [if_neg hxps, inv.childW x hxK]
      apply Finset.filter_congr
      intro a hax
      have hanec : a = curr → False := by
        intro hac
        have : x ∈ (lookupNode g curr).parents :=
          (hinv curr hcurrK x hxK).mpr (hac ▸ hax)
        exact hxps ((hpsmem x).mpr this)
      simp only [hmemRcurr a]
      constructor
      · intro hanR hc
        exact hc.elim hanR hanec
      · intro han hc
        exact han (Or.inl hc)
  · intro x hxK hxR'
    have hxR : x ∉ R := fun hc => hxR' ((hmemRcurr x).mpr (Or.inl hc))
    have hxc : x ≠ curr := fun hc => hxR' ((hmemRcurr x).mpr (Or.inr hc))
    constructor
    · intro hall
      by_cases hallR : ∀ c ∈ (lookupNode g x).children, c ∈ R
      · have hxQ : x ∈ curr :: rest := (inv.queueChar x hxK hxR).mp hallR
        rcases List.mem_cons.mp hxQ with hc | hc
        · exact absurd hc hxc
        · exact List.mem_append.mpr (Or.inl hc)
      · push_neg at hallR
        obtain ⟨c0, hc0x, hc0R⟩ := hallR
        have hc0curr : c0 = curr := by
          rcases (hmemRcurr c0).mp (hall c0 hc0x) with hc | hc
          · exact absurd hc hc0R
          · exact hc
        have hxp : x ∈ (lookupNode g curr).parents :=
          (hinv curr hcurrK x hxK).mpr (hc0curr ▸ hc0x)
        refine List.mem_append.mpr (Or.inr ((henqc x).mpr ⟨hxp, ?_⟩))
        intro c hcx
        rcases (hmemRcurr c).mp (hall c hcx) with hc | hc
        · exact Or.inl hc
        · exact Or.inr hc
    · intro hxQ'
      rcases List.mem_append.mp hxQ' with hxr | hxe
      · have hall : ∀ c ∈ (lookupNode g x).children, c ∈ R :=
          (inv.queueChar x hxK hxR).mpr (List.mem_cons_of_mem curr hxr)
        exact fun c hc => (hmemRcurr c).mpr (Or.inl (hall c hc))
      · have := ((henqc x).mp hxe).2
        intro c hc
        exact (hmemRcurr c).mpr (this c hc)
  · intro x hx
    rcases List.mem_append.mp hx with hxr | hxe
    · exact inv.noSelfQ x (List.mem_cons_of_mem curr hxr)
    · intro hxpx
      have hxK : x ∈ keysOf g :=
        hclosP curr hcurrK x (hEnqPs x hxe)
      have hxcx : x ∈ (lookupNode g x).children := (hinv x hxK x hxK).mp hxpx
      rcases ((henqc x).mp hxe).2 x hxcx with hc | hc
      · exact hEnqNotR x hxe hc
      · exact hEnqNeCurr x hxe hc
  · intro p hp c hc
    rcases (hmemRcurr p).mp hp with hpR | hpc
    · obtain ⟨i, j, hij, hgi, hgj⟩ := inv.prec p hpR c hc
      have hi : i < R.length := (List.get?_eq_some.mp hgi).1
      have hj : j < R.length := (List.get?_eq_some.mp hgj).1
      exact ⟨i, j, hij, by rw [List.get?_append hi]; exact hgi,
        by rw [List.get?_append hj]; exact hgj⟩
    · have hcR : c ∈ R := hcurrchild c (hpc ▸ hc)
      obtain ⟨i, hgi⟩ := List.mem_iff_get?.mp hcR
      have hi : i < R.length := (List.get?_eq_some.mp hgi).1
      refine ⟨i, R.length, hi, by rw [List.get?_append hi]; exact hgi, ?_⟩
      rw [hpc]
      exact List.get?_concat_length R curr

theorem kahnLoop_zero (W : Graph) (Q R : List String) :
    kahnLoop 0 W Q R = R := rfl

theorem kahnLoop_succ_nil (fuel : Nat) (W : Graph) (R : List String) :
    kahnLoop (fuel + 1) W [] R = R := rfl

theorem kahnLoop_succ_cons (fuel : Nat) (W : Graph) (curr : String)
    (rest R : List String) :
    kahnLoop (fuel + 1) W (curr :: rest) R =
      kahnLoop fuel
        (removeEdges curr (setList (lookupNode W curr).parents) W []).1
        (rest ++ (removeEdges curr (setList (lookupNode W curr).parents) W []).2)
        (R ++ [curr]) := rfl

/-- Running the queue loop from any invariant state with enough fuel
yields a duplicate-free list of keys in which every node is preceded by
all of its children, and every key left out still has an unprocessed
child (the loop stopped because nothing was ready, not because fuel ran
out). -/
theorem kahnLoop_spec (g : Graph) (hwf : WellFormed g) :
    ∀ (fuel : Nat) (W : Graph) (Q R : List String), KahnInv g W Q R →
    edgeSum W + Q.length ≤ fuel →
    (kahnLoop fuel W Q R).Nodup ∧
    (∀ x ∈ kahnLoop fuel W Q R, x ∈ keysOf g) ∧
    (∀ p ∈ kahnLoop fuel W Q R, ∀ c ∈ (lookupNode g p).children,
      ∃ i j, i < j ∧ (kahnLoop fuel W Q R).get? i = some c ∧
        (kahnLoop fuel W Q R).get? j = some p) ∧
    (∀ x ∈ keysOf g, x ∉ kahnLoop fuel W Q R →
      ¬ (∀ c ∈ (lookupNode g x).children, c ∈ kahnLoop fuel W Q R)) := by
  intro fuel
  induction fuel with
  | zero =>
    intro W Q R inv hfuel
    have hQ : Q = [] := List.length_eq_zero.mp (by omega)
    subst hQ
    rw [kahnLoop_zero]
    refine ⟨inv.nodupR, inv.subR, inv.prec, ?_⟩
    intro x hxK hxR hall
    exact absurd ((inv.queueChar x hxK hxR).mp hall) (List.not_mem_nil x)
  | succ fuel ih =>
    intro W Q R inv hfuel
    match Q with
    | [] =>
      rw [kahnLoop_succ_nil]
      refine ⟨inv.nodupR, inv.subR, inv.prec, ?_⟩
      intro x hxK hxR hall
      exact absurd ((inv.queueChar x hxK hxR).mp hall) (List.not_mem_nil x)
    | curr :: rest =>
      rw [kahnLoop_succ_cons]
      have hcurrKW : curr ∈ keysOf W := by
        rw [inv.keysEq]
        exact inv.subQ curr (List.mem_cons_self curr rest)
      have hNW : (keysOf W).Nodup := by rw [inv.keysEq]; exact hwf.1
      have hpsKW : ∀ p ∈ setList (lookupNode W curr).parents, p ∈ keysOf W := by
        intro p hp
        rw [inv.keysEq]
        have hcurrK : curr ∈ keysOf g :=
          inv.subQ curr (List.mem_cons_self curr rest)
        have hcurrR : curr ∉ R := inv.disjQR curr (List.mem_cons_self curr rest)
        have hparcurr : (lookupNode W curr).parents =
            (lookupNode g curr).parents := by
          rw [inv.parW curr hcurrK, if_neg hcurrR]
        exact hwf.2.1 curr hcurrK p (by rwa [mem_setList, hparcurr] at hp)
      have hmeas := kahnStep_measure W curr hNW hcurrKW hpsKW
      have hfuel' : edgeSum (removeEdges curr
            (setList (lookupNode W curr).parents) W []).1 +
          (rest ++ (removeEdges curr
            (setList (lookupNode W curr).parents) W []).2).length ≤ fuel := by
        rw [List.length_append]
        simp only [List.length_cons] at hfuel
        omega
      exact ih _ _ _ (inv.step hwf) hfuel'

/-- The state at loop entry satisfies the invariant. -/
theorem kahnInv_init (g : Graph) (hwf : WellFormed g) :
    KahnInv g g (initQueue g) [] := by
  obtain ⟨hndK, hclosP, hclosC, hinv⟩ := hwf
  have hqmem : ∀ x, x ∈ initQueue g ↔
      x ∈ keysOf g ∧ (lookupNode g x).children = ∅ := by
    intro x
    simp [initQueue, List.mem_filter]
  refine ⟨rfl, List.nodup_nil, ?_, ?_, ?_, ?_, ?_, ?_, ?_, ?_, ?_⟩
  · intro x hx; exact absurd hx (List.not_mem_nil x)
  · exact hndK.filter _
  · intro x hx; exact ((hqmem x).mp hx).1
  · intro x _ hx; exact absurd hx (List.not_mem_nil x)
  · intro x _
    rw [if_neg (List.not_mem_nil x)]
  · intro x _
    apply (Finset.filter_true_of_mem _).symm
    intro c _
    exact List.not_mem_nil c
  · intro x hxK _
    constructor
    · intro hall
      refine (hqmem x).mpr ⟨hxK, ?_⟩
      exact Finset.eq_empty_iff_forall_not_mem.mpr
        (fun c hc => absurd (hall c hc) (List.not_mem_nil c))
    · intro hxq c hc
      rw [((hqmem x).mp hxq).2] at hc
      exact absurd hc (Finset.not_mem_empty c)
  · intro x hxq hxp
    have hxK := ((hqmem x).mp hxq).1
    have hxc : x ∈ (lookupNode g x).children := (hinv x hxK x hxK).mp hxp
    rw [((hqmem x).mp hxq).2] at hxc
    exact absurd hxc (Finset.not_mem_empty x)
  · intro p hp; exact absurd hp (List.not_mem_nil p)

/-- The four guarantees of `kahnLoop_spec` instantiated at `topo_sort`'s
actual call. -/
theorem kahnResult_spec (g : Graph) (hwf : WellFormed g) :
    (kahnResult g).Nodup ∧
    (∀ x ∈ kahnResult g, x ∈ keysOf g) ∧
    (∀ p ∈ kahnResult g, ∀ c ∈ (lookupNode g p).children,
      ∃ i j, i < j ∧ (kahnResult g).get? i = some c ∧
        (kahnResult g).get? j = some p) ∧
    (∀ x ∈ keysOf g, x ∉ kahnResult g →
      ¬ (∀ c ∈ (lookupNode g x).children, c ∈ kahnResult g)) :=
  kahnLoop_spec g hwf _ g (initQueue g) [] (kahnInv_init g hwf) (le_refl _)

/-- On an acyclic well-formed graph the loop drains every key: any
nonempty leftover set would contain a `childRel`-minimal node whose
children are all processed, contradicting the loop's exit condition. -/
theorem kahnResult_complete (g : Graph) (hwf : WellFormed g)
    (hacy : Acyclic g) : ∀ x ∈ keysOf g, x ∈ kahnResult g := by
  by_contra hcon
  push_neg at hcon
  obtain ⟨x0, hx0K, hx0⟩ := hcon
  obtain ⟨m, hm, hmin⟩ := hacy.has_min
    {y | y ∈ keysOf g ∧ y ∉ kahnResult g} ⟨x0, hx0K, hx0⟩
  obtain ⟨hmK, hmR⟩ := hm
  apply (kahnResult_spec g hwf).2.2.2 m hmK hmR
  intro c hc
  by_contra hcR
  have hcK : c ∈ keysOf g := hwf.2.2.1 m hmK c hc
  exact hmin c ⟨hcK, hcR⟩ ⟨hmK, hc⟩

theorem kahnResult_perm (g : Graph) (hwf : WellFormed g) (hacy : Acyclic g) :
    (kahnResult g).Perm (keysOf g) :=
  (List.perm_ext_iff_of_nodup (kahnResult_spec g hwf).1 hwf.1).mpr
    (fun a => ⟨fun ha => (kahnResult_spec g hwf).2.1 a ha,
      fun ha => kahnResult_complete g hwf hacy a ha⟩)

theorem topo_sort_eq_some (g : Graph) (hwf : WellFormed g)
    (hacy : Acyclic g) : topo_sort g = some (kahnResult g) := by
  unfold topo_sort
  rw [if_pos]
  rw [(kahnResult_perm g hwf hacy).length_eq]
  exact List.length_map g Prod.fst

theorem indexOf_from_get? (l : List String) (hl : l.Nodup) :
    ∀ (i : Nat) (a : String), l.get? i = some a → l.indexOf a = i := by
  induction l with
  | nil => intro i a h; simp at h
  | cons b t ih =>
    intro i a h
    match i with
    | 0 =>
      have hba : b = a := by simpa using h
      rw [← hba, List.indexOf_cons_self]
    | n + 1 =>
      have ht : t.get? n = some a := by simpa using h
      have hat : a ∈ t := List.get?_mem ht
      have hba : b ≠ a := fun hc => (List.nodup_cons.mp hl).1 (hc ▸ hat)
      rw [List.indexOf_cons_ne t hba, ih (List.nodup_cons.mp hl).2 n a ht]

/-- If `topo_sort` succeeds (the cycle check passes) the graph was
acyclic: the produced order itself is a rank function. -/
theorem acyclic_of_topo_sort_some (g : Graph) (hwf : WellFormed g)
    (l : List String) (hl : topo_sort g = some l) : Acyclic g := by
  have hlen : (kahnResult g).length = g.length := by
    by_contra hc
    rw [topo_sort, if_neg hc] at hl
    exact Option.noConfusion hl
  have hperm : (kahnResult g).Perm (keysOf g) := by
    apply List.Subperm.perm_of_length_le
    · exact List.subperm_of_subset (kahnResult_spec g hwf).1
        (fun a ha => (kahnResult_spec g hwf).2.1 a ha)
    · rw [hlen]
      exact Nat.le_of_eq (List.length_map g Prod.fst)
  apply acyclic_of_rank g (fun x => (kahnResult g).indexOf x)
  intro c p hcp
  obtain ⟨hpK, hc⟩ := hcp
  have hpR : p ∈ kahnResult g := hperm.mem_iff.mpr hpK
  obtain ⟨i, j, hij, hgi, hgj⟩ := (kahnResult_spec g hwf).2.2.1 p hpR c hc
  rw [indexOf_from_get? _ (kahnResult_spec g hwf).1 i c hgi,
    indexOf_from_get? _ (kahnResult_spec g hwf).1 j p hgj]
  exact hij

/-- On a well-formed cyclic graph the result misses at least one node, so
the length check fails and the code takes the fatal-exit branch. -/
theorem topo_sort_eq_none_of_cycle (g : Graph) (hwf : WellFormed g)
    (hcyc : ¬ Acyclic g) : topo_sort g = none := by
  cases h : topo_sort g with
  | none => rfl
  | some l => exact absurd (acyclic_of_topo_sort_some g hwf l h) hcyc

theorem gEx_wellFormed : WellFormed gEx := by unfold WellFormed; decide

theorem gEx_acyclic : Acyclic gEx := by
  apply acyclic_of_rank gEx (fun s => if s = "a" then 0 else 1)
  intro c p hcp
  obtain ⟨hpK, hc⟩ := hcp
  have hp : p = "a" ∨ p = "b" := by
    simpa [gEx, keysOf] using hpK
  rcases hp with rfl | rfl
  · have : (lookupNode gEx "a").children = ∅ := by decide
    rw [this] at hc
    exact absurd hc (Finset.not_mem_empty c)
  · have : (lookupNode gEx "b").children = {"a"} := by decide
    rw [this] at hc
    have hca : c = "a" := Finset.mem_singleton.mp hc
    simp [hca]

/-- C2: for every well-formed acyclic input graph, `topo_sort` returns a
list that is a permutation of exactly the graph's key set — every hash
appears exactly once, no duplicates, no omissions. -/
theorem topo_sort_perm_keys (g : Graph) (hwf : WellFormed g)
    (hacy : Acyclic g) :
    ∃ l, topo_sort g = some l ∧ l.Perm (keysOf g) :=
  ⟨kahnResult g, topo_sort_eq_some g hwf hacy, kahnResult_perm g hwf hacy⟩

/-- Witness for `topo_sort_perm_keys` at the concrete two-commit chain
`gEx`. -/
theorem topo_sort_perm_keys_witness :
    ∃ l, topo_sort gEx = some l ∧ l.Perm (keysOf gEx) :=
  topo_sort_perm_keys gEx gEx_wellFormed gEx_acyclic

/-- C1: in the list returned by `topo_sort` on a well-formed acyclic
graph, every commit `c` occurs at a strictly earlier index than each of
its parents `p`. -/
theorem topo_sort_parent_strictly_later (g : Graph) (hwf : WellFormed g)
    (hacy : Acyclic g) (l : List String) (hl : topo_sort g = some l)
    (c p : String) (hc : c ∈ keysOf g)
    (hp : p ∈ (lookupNode g c).parents) :
    ∃ i j, i < j ∧ l.get? i = some c ∧ l.get? j = some p := by
  have hleq : l = kahnResult g := by
    rw [topo_sort_eq_some g hwf hacy] at hl
    exact (Option.some_injective _ hl).symm
  subst hleq
  have hpK : p ∈ keysOf g := hwf.2.1 c hc p hp
  have hcchild : c ∈ (lookupNode g p).children := (hwf.2.2.2 c hc p hpK).mp hp
  have hpR : p ∈ kahnResult g := kahnResult_complete g hwf hacy p hpK
  exact (kahnResult_spec g hwf).2.2.1 p hpR c hcchild

/-- Witness for `topo_sort_parent_strictly_later`: in `gEx` the commit
`a` precedes its parent `b` in the output `["a", "b"]`. -/
theorem topo_sort_parent_strictly_later_witness :
    ∃ i j, i < j ∧ (["a", "b"] : List String).get? i = some "a" ∧
      (["a", "b"] : List String).get? j = some "b" :=
  topo_sort_parent_strictly_later gEx gEx_wellFormed gEx_acyclic
    ["a", "b"] (by decide) "a" "b" (by decide) (by decide)

/-! ### Character-level models of the Python string operations -/

/-- Python `s.replace("\n", " ")` for the single-character pattern:
replace every newline character by a space. -/
def pyReplaceNlSpace (s : String) : String :=
  String.mk (s.data.map (fun c => if c = '\n' then ' ' else c))

/-- Python `s.split(sep)` for a single-character separator: split at
every occurrence, keeping empty pieces (`"a  b".split(" ") ==
["a", "", "b"]`, `"".split(" ") == [""]`). -/
def splitOnChar (sep : Char) : List Char → List (List Char)
  | [] => [[]]
  | c :: rest =>
    match splitOnChar sep rest with
    | [] => [[]]
    | h :: t => if c = sep then [] :: h :: t else (c :: h) :: t

def pySplitChar (sep : Char) (s : String) : List String :=
  (splitOnChar sep s.data).map String.mk

/-- Python `s.strip()`: drop leading and trailing whitespace. -/
def pyStrip (s : String) : String :=
  String.mk
    (((s.data.dropWhile Char.isWhitespace).reverse.dropWhile
      Char.isWhitespace).reverse)

/-- Python slicing `s[n:]` (character positions). -/
def pyDrop (s : String) (n : Nat) : String := String.mk (s.data.drop n)

/-! ### The Object Reader's payload parsing (`parents`, lines 114-121) -/

/-- The token scan of `parents`: flatten the decompressed payload by
replacing newlines with spaces, split on single spaces, and collect the
token after every token equal to `parent` whose successor index `i + 1`
is below `len - 1`. -/
def parentsOfPayload (payload : String) : Finset String :=
  let tokens := pySplitChar ' ' (pyReplaceNlSpace payload)
  (tokens.enum.filterMap (fun it =>
    if it.2 = "parent" ∧ it.1 + 1 < tokens.length - 1
    then tokens.get? (it.1 + 1) else none)).toFinset

/-- Modelled from the spec (§4.3), for the refinement comparison of C3:
the payload is split into newline-separated fields, and the hashes on
lines whose first space-separated token is the literal `parent` form the
direct-parent set. -/
def specParentSet (payload : String) : Finset String :=
  ((pySplitChar '\n' payload).filterMap (fun line =>
    match pySplitChar ' ' line with
    | tok :: hash :: _ => if tok = "parent" then some hash else none
    | _ => none)).toFinset

example : parentsOfPayload "tree t\nparent b\nauthor x y" = {"b"} := by decide

/-- C3 (code_bug evidence): the token scan of `parents` drops a parent
hash that ends the payload (the off-by-one `i + 1 < len - 1`), and picks
up a spurious "parent" token occurring in the free-text commit message,
so it differs from the line-based grammar of the spec in both
directions. -/
theorem parents_token_scan_diverges_from_grammar :
    parentsOfPayload "tree t\nparent b" = ∅ ∧
    specParentSet "tree t\nparent b" = {"b"} ∧
    parentsOfPayload "tree t\nparent b\nauthor x\n\nsee parent c please" =
      {"b", "c"} ∧
    specParentSet "tree t\nparent b\nauthor x\n\nsee parent c please" =
      {"b"} := by
  exact ⟨by decide, by decide, by decide, by decide⟩

/-! ### The frame property of `topo_sort` (C7) -/

/-- Result of the state-passing reading of `topo_sort`: the order it
returns together with the graph object the caller still holds when the
call returns. -/
structure SortOutcome where
  order : Option (List String)
  callerGraph : Graph
deriving DecidableEq

/-- `copy.deepcopy(graph)` produces an independent value; on immutable
values the copy is the value itself. -/
def deepcopyGraph (g : Graph) : Graph := g

/-- State-passing embedding of `topo_sort` making ownership explicit:
the loop runs on the deep copy (every `updNode` inside `removeEdges`
rewrites the copy only), the final length check reads the caller's
graph, and the caller's graph is handed back. -/
def topo_sortTracked (g : Graph) : SortOutcome :=
  let copied := deepcopyGraph g
  let result := kahnLoop (edgeSum copied + (initQueue copied).length)
    copied (initQueue copied) []
  { order := if result.length = g.length then some result else none
    callerGraph := g }

/-- C7: `topo_sort` does not mutate its input — after the call the
caller's graph, and in particular every node's parents and children
sets, are exactly as before, and the returned order is that of
`topo_sort`; the sorter consumed edges only in its private copy. -/
theorem topo_sort_preserves_input (g : Graph) :
    (topo_sortTracked g).callerGraph = g ∧
    (∀ h, lookupNode (topo_sortTracked g).callerGraph h = lookupNode g h) ∧
    (topo_sortTracked g).order = topo_sort g :=
  ⟨rfl, fun _ => rfl, rfl⟩

/-! ### Fatal exits, the object store, and the Graph Builder -/

/-- A fatal exit: the message written to stderr before exiting (if any —
the missing-ref-file branch writes none) and the process exit code. -/
structure ProgExit where
  msg : Option String
  code : Nat
deriving DecidableEq

deriving instance DecidableEq for Except

/-- The content-addressed object store, keyed by commit hash; the stored
string is the decompressed (`zlib.decompress(...).decode`) payload text.
-/
def readObject (store : List (String × String)) (h : String) :
    Option String :=
  (store.find? (fun e => e.1 = h)).map (fun e => e.2)

/-- `parents` from the source, including the object-file lookup: a
missing object writes a diagnostic and exits with code 1. -/
def parents (store : List (String × String)) (h : String) :
    Except ProgExit (Finset String) :=
  match readObject store h with
  | none => .error ⟨some ("Object for hash " ++ h ++ " not found"), 1⟩
  | some payload => .ok (parentsOfPayload payload)

/-- The `for parent in curr_parents` loop of `make_commit_graph`.  A
missing parent node is created as `CommitNode(curr_hash)` — with the
child's hash, exactly as in line 150 of the source — then the mutual
edge is inserted and the parent is pushed if unvisited (`stack` is a
Python set: the push deduplicates, the position chosen is the end). -/
def addParents (curr : String) : List String → Graph → List String →
    List String → Graph × List String
  | [], result, stack, _ => (result, stack)
  | p :: rest, result, stack, visited =>
    let result1 := if p ∈ keysOf result then result
      else result ++ [(p, ⟨curr, ∅, ∅⟩)]
    let result2 := updNode result1 curr
      (fun n => { n with parents := insert p n.parents })
    let result3 := updNode result2 p
      (fun n => { n with children := insert curr n.children })
    let stack1 := if p ∈ visited then stack
      else if p ∈ stack then stack else stack ++ [p]
    addParents curr rest result3 stack1 visited

/-- Fuel bound for the discovery loop: every iteration either pops an
already-visited hash or visits a new one, and pushes happen only for
parents read from the store, so `|branches| + Σ |parents| + 1` iterations
always suffice. -/
def mcgFuel (store : List (String × String)) (branchHashes : List String) :
    Nat :=
  branchHashes.length +
    (store.map (fun e => (parentsOfPayload e.2).card)).sum + 1

/-- The `while stack` loop of `make_commit_graph`: pop a hash, strip it,
skip if visited, otherwise create its node if missing, read its parents
from the object store (fatally propagating a missing object), and add
the parent edges. -/
def mcgLoop (store : List (String × String)) :
    Nat → List String → List String → Graph → Except ProgExit Graph
  | 0, _, _, result => .ok result
  | _ + 1, [], _, result => .ok result
  | fuel + 1, curr0 :: stack, visited, result =>
    let curr := pyStrip curr0
    if curr ∈ visited then mcgLoop store fuel stack visited result
    else
      match parents store curr with
      | .error e => .error e
      | .ok ps =>
        let result1 := if curr ∈ keysOf result then result
          else result ++ [(curr, ⟨curr, ∅, ∅⟩)]
        let step := addParents curr (setList ps) result1 stack
          (curr :: visited)
        mcgLoop store fuel step.2 (curr :: visited) step.1

/-- `make_commit_graph` from the source: discover every ancestor of the
branch tips and assemble the bidirectional graph. -/
def make_commit_graph (store : List (String × String))
    (branchHashes : List String) : Except ProgExit Graph :=
  mcgLoop store (mcgFuel store branchHashes) branchHashes [] []

/-- The graph the builder produces from a branch at `a` whose commit has
the single parent `b`: the node keyed `b` carries `commit_hash = "a"`. -/
def gBug : Graph := [("a", ⟨"a", {"b"}, ∅⟩), ("b", ⟨"a", ∅, {"a"}⟩)]

/-- C4 (code_bug evidence): on a two-commit repository the builder
stores the child's hash as the parent node's identity —
`graph["b"].commit_hash` is `"a"`, not the key `"b"` (line 150 creates
the parent as `CommitNode(curr_hash)`). -/
theorem make_commit_graph_wrong_identity :
    make_commit_graph
      [("a", "tree t\nparent b\nauthor x y"), ("b", "tree t\nauthor x y")]
      ["a"] = .ok gBug ∧
    "b" ∈ keysOf gBug ∧
    (lookupNode gBug "b").commit_hash = "a" ∧
    (lookupNode gBug "b").commit_hash ≠ "b" := by
  exact ⟨by decide, by decide, by decide, by decide⟩

/-! ### The Discontinuity-Aware Printer and the pipeline (C6, C9, C10) -/

/-- The BranchMap: Python dict from commit hash to the set of branch
names pointing at it. -/
abbrev BranchMap := List (String × Finset String)

def lookupBranches (bm : BranchMap) (h : String) : Option (Finset String) :=
  (bm.find? (fun e => e.1 = h)).map (fun e => e.2)

/-- `' '.join(s)` over a Python set (iteration order via `setList`). -/
def joinSet (s : Finset String) : String :=
  String.intercalate " " (setList s)

/-- The commit line of `print_topo_sort` (lines 211-215): the hash, and
when the BranchMap has an entry, a space and the `sorted(...)` branch
names joined by single spaces (`setList` enumerates ascending, which is
exactly Python's `sorted` order). -/
def commitLine (bm : BranchMap) (h : String) : String :=
  match lookupBranches bm h with
  | some names => h ++ " " ++ String.intercalate " " (setList names)
  | none => h

/-- The printing loop of `print_topo_sort` as the list of emitted stdout
lines: a pending discontinuity first prints `=<children>`, then the
commit line, and when the next commit is not one of the current commit's
parents, the `<parents>=` line plus the blank line that
`print("{0}=\n")` produces, setting the flag. -/
def printLoop (g : Graph) (bm : BranchMap) : Bool → List String →
    List String
  | _, [] => []
  | disc, curr :: rest =>
    let head := if disc
      then ["=" ++ joinSet (lookupNode g curr).children] else []
    match rest with
    | [] => head ++ [commitLine bm curr]
    | next :: _ =>
      if next ∈ (lookupNode g curr).parents then
        head ++ [commitLine bm curr] ++ printLoop g bm false rest
      else
        head ++ [commitLine bm curr] ++
          [joinSet (lookupNode g curr).parents ++ "=", ""] ++
          printLoop g bm true rest

/-- `print_topo_sort` from the source, as the stdout line list. -/
def print_topo_sort (commit_graph : Graph) (ordered : List String)
    (branches : BranchMap) : List String :=
  printLoop commit_graph branches false ordered

/-- Observable behaviour of one program run: stdout lines, stderr text,
exit code. -/
structure ProgResult where
  stdout : List String
  stderr : String
  exitCode : Nat
deriving DecidableEq

/-- The pipeline from the discovered branch map onwards
(`topo_order_commits` lines 29-31): build the graph from the object
store, topologically sort, and print; each fatal exit yields its stderr
text and code 1 with nothing on stdout. -/
def runPipeline (branchDict : BranchMap)
    (store : List (String × String)) : ProgResult :=
  match make_commit_graph store (branchDict.map Prod.fst) with
  | .error e => ⟨[], e.msg.getD "", e.code⟩
  | .ok g =>
    match topo_sort g with
    | none => ⟨[], "Cycle detected in graph", 1⟩
    | some ord => ⟨print_topo_sort g ord branchDict, "", 0⟩

/-- C6: when the discovered graph contains a cycle, the program writes
the diagnostic `Cycle detected in graph` to the error stream, exits with
code 1, and emits no standard-output lines. -/
theorem cycle_aborts_with_diagnostic_no_stdout (branchDict : BranchMap)
    (store : List (String × String)) (g : Graph)
    (hg : make_commit_graph store (branchDict.map Prod.fst) = .ok g)
    (hwf : WellFormed g) (hcyc : ¬ Acyclic g) :
    runPipeline branchDict store = ⟨[], "Cycle detected in graph", 1⟩ := by
  unfold runPipeline
  rw [hg]
  show (match topo_sort g with
    | none => ProgResult.mk [] "Cycle detected in graph" 1
    | some ord => ProgResult.mk (print_topo_sort g ord branchDict) "" 0) =
    ProgResult.mk [] "Cycle detected in graph" 1
  rw [topo_sort_eq_none_of_cycle g hwf hcyc]

/-- The two-commit cycle of the spec's test sentence: `A`'s parent is
`B`, `B`'s parent is `A`, and `A` is reachable from a branch. -/
def storeCyc : List (String × String) :=
  [("A", "tree t\nparent B\nauthor x y"),
   ("B", "tree t\nparent A\nauthor x y")]

def bdCyc : BranchMap := [("A", {"main"})]

def gCyc : Graph :=
  [("A", ⟨"A", {"B"}, {"B"}⟩), ("B", ⟨"A", {"A"}, {"A"}⟩)]

/-- Witness for `cycle_aborts_with_diagnostic_no_stdout` at the concrete
2-node cycle. -/
theorem cycle_aborts_with_diagnostic_no_stdout_witness :
    runPipeline bdCyc storeCyc = ⟨[], "Cycle detected in graph", 1⟩ :=
  cycle_aborts_with_diagnostic_no_stdout bdCyc storeCyc gCyc (by decide)
    (by unfold WellFormed; decide)
    (not_acyclic_of_two_cycle gCyc "A" "B" ⟨by decide, by decide⟩
      ⟨by decide, by decide⟩)

/-! ### Repository Locator and Branch Enumerator (C5, C8) -/

/-- `find_git_directory`: walk up the directory chain starting at the
working directory (the chain ends before the filesystem root); return
the first `<dir>/.git` that exists, else print the diagnostic to stderr
and exit 1. -/
def find_git_directory (chain : List String)
    (pathExists : String → Bool) : Except ProgExit String :=
  match chain with
  | [] => .error ⟨some "Not inside a Git repository", 1⟩
  | d :: rest =>
    if pathExists (d ++ "/.git") then .ok (d ++ "/.git")
    else find_git_directory rest pathExists

/-- Line 62 of the source: the branch name is the ref file's absolute
path with its first `len(os.getcwd() + "/.git/refs/heads/")` characters
sliced off — the slice length comes from the *working directory*, not
from the repository root that `find_git_directory` returned. -/
def branch_name_of (cwd file_path : String) : String :=
  pyDrop file_path (cwd ++ "/.git/refs/heads/").length

/-- `branches[hash].add(branch_name)` with dict upsert: update the
existing entry or append a fresh one with a singleton set. -/
def bmAdd : BranchMap → String → String → BranchMap
  | [], k, n => [(k, {n})]
  | (a, s) :: t, k, n =>
    if a = k then (a, insert n s) :: t else (a, s) :: bmAdd t k n

/-- The file loop of `get_local_branches` over the ref files discovered
by `os.walk` (each given by its path relative to `refs/heads` and its
content, `none` when the file vanished before the `os.path.exists`
check, on which the code calls `exit(1)` with no message). -/
def get_local_branches_go (cwd gitdir : String) :
    List (String × Option String) → BranchMap → Except ProgExit BranchMap
  | [], acc => .ok acc
  | (_, none) :: _, _ => .error ⟨none, 1⟩
  | (rel, some content) :: rest, acc =>
    get_local_branches_go cwd gitdir rest
      (bmAdd acc (pyStrip content)
        (branch_name_of cwd (gitdir ++ "/refs/heads/" ++ rel)))

/-- `get_local_branches` from the source. -/
def get_local_branches (cwd gitdir : String)
    (files : List (String × Option String)) : Except ProgExit BranchMap :=
  get_local_branches_go cwd gitdir files []

/-- C5 (code_bug evidence): the same ref file
`/repo/.git/refs/heads/main` yields branch name `main` when the program
runs from the repository root but the empty string when it runs from the
subdirectory `/repo/sub` — the name depends on the working directory,
because the slice offset uses `os.getcwd()` instead of the located
repository root. -/
theorem branch_name_depends_on_cwd :
    get_local_branches "/repo" "/repo/.git" [("main", some "a1")] =
      .ok [("a1", {"main"})] ∧
    get_local_branches "/repo/sub" "/repo/.git" [("main", some "a1")] =
      .ok [("a1", {""})] :=
  ⟨by decide, by decide⟩

/-- C8 counterexample: the ref file that vanishes between discovery and
the `os.path.exists` check is a fatal condition that exits with code 1
*without* writing any diagnostic (`exit(1)` at line 56): the modelled
exit carries `msg = none`. -/
theorem ref_missing_exits_without_diagnostic :
    get_local_branches "/repo" "/repo/.git" [("main", none)] =
      .error ⟨none, 1⟩ := by
  decide

/-- C8 (amended): of the four fatal conditions, no-metadata-directory,
missing object file and detected cycle each write a nonempty
human-readable diagnostic to the error stream before exiting with code
1, while the missing-ref-file condition exits with code 1 writing
nothing. -/
theorem fatal_exit_diagnostics (chain : List String)
    (pathExists : String → Bool)
    (hng : ∀ d ∈ chain, pathExists (d ++ "/.git") = false)
    (store1 : List (String × String)) (h0 : String)
    (hobj : readObject store1 h0 = none)
    (bd : BranchMap) (store2 : List (String × String)) (g : Graph)
    (hg : make_commit_graph store2 (bd.map Prod.fst) = .ok g)
    (hcyc : topo_sort g = none)
    (cwd gitdir rel : String) (restFiles : List (String × Option String))
    (acc : BranchMap) :
    find_git_directory chain pathExists =
      .error ⟨some "Not inside a Git repository", 1⟩ ∧
    parents store1 h0 =
      .error ⟨some ("Object for hash " ++ h0 ++ " not found"), 1⟩ ∧
    runPipeline bd store2 = ⟨[], "Cycle detected in graph", 1⟩ ∧
    get_local_branches_go cwd gitdir ((rel, none) :: restFiles) acc =
      .error ⟨none, 1⟩ := by
  refine ⟨?_, ?_, ?_, rfl⟩
  · induction chain with
    | nil => rfl
    | cons d rest ih =>
      rw [find_git_directory,
        if_neg (by rw [hng d (List.mem_cons_self d rest)]; exact
          Bool.false_ne_true)]
      exact ih (fun x hx => hng x (List.mem_cons_of_mem d hx))
  · rw [parents, hobj]
  · unfold runPipeline
    rw [hg]
    show (match topo_sort g with
      | none => ProgResult.mk [] "Cycle detected in graph" 1
      | some ord => ProgResult.mk (print_topo_sort g ord bd) "" 0) =
      ProgResult.mk [] "Cycle detected in graph" 1
    rw [hcyc]

/-- Witness for `fatal_exit_diagnostics` at concrete inputs: one
directory without `.git`, an empty object store, and the 2-node cycle
repository. -/
theorem fatal_exit_diagnostics_witness :
    find_git_directory ["/a"] (fun _ => false) =
      .error ⟨some "Not inside a Git repository", 1⟩ ∧
    parents [] "ab" =
      .error ⟨some ("Object for hash " ++ "ab" ++ " not found"), 1⟩ ∧
    runPipeline bdCyc storeCyc = ⟨[], "Cycle detected in graph", 1⟩ ∧
    get_local_branches_go "/r" "/r/.git" [("b", none)] [] =
      .error ⟨none, 1⟩ :=
  fatal_exit_diagnostics ["/a"] (fun _ => false)
    (fun d _ => rfl) [] "ab" rfl bdCyc storeCyc gCyc (by decide) (by decide)
    "/r" "/r/.git" "b" [] []

/-! ### Determinism of the branch annotation (C9) -/

theorem lookupBranches_cons (a : String) (s : Finset String)
    (t : BranchMap) (x : String) :
    lookupBranches ((a, s) :: t) x =
      if a = x then some s else lookupBranches t x := by
  by_cases h : a = x <;> simp [lookupBranches, List.find?, h]

theorem lookupBranches_nil (x : String) :
    lookupBranches [] x = none := rfl

theorem lookupBranches_bmAdd (bm : BranchMap) (k n x : String) :
    lookupBranches (bmAdd bm k n) x =
      if x = k then some (insert n ((lookupBranches bm k).getD ∅))
      else lookupBranches bm x := by
  induction bm with
  | nil =>
    rw [bmAdd, lookupBranches_cons, lookupBranches_nil, lookupBranches_nil]
    by_cases hx : x = k
    · rw [if_pos hx.symm, if_pos hx]
      simp
    · rw [if_neg (fun hc => hx hc.symm), if_neg hx]
  | cons e t ih =>
    obtain ⟨a, s⟩ := e
    by_cases hak : a = k
    · rw [bmAdd, if_pos hak]
      by_cases hx : x = k
      · rw [lookupBranches_cons, if_pos (hak.trans hx.symm), if_pos hx,
          lookupBranches_cons, if_pos hak]
        rfl
      · rw [lookupBranches_cons,
          if_neg (fun hc => hx ((hc.symm.trans hak : x = k))), if_neg hx,
          lookupBranches_cons, if_neg (fun hc => hx (hc.symm.trans hak))]
    · rw [bmAdd, if_neg hak]
      by_cases hxa : a = x
      · have hxk : ¬ x = k := fun hc => hak (hxa.trans hc)
        rw [lookupBranches_cons, if_pos hxa, if_neg hxk,
          lookupBranches_cons, if_pos hxa]
      · rw [lookupBranches_cons, if_neg hxa, ih,
          lookupBranches_cons a s t k, if_neg hak,
          lookupBranches_cons a s t x, if_neg hxa]

/-- Lookup-equivalence of branch maps (same set of names per hash). -/
def bmEquiv (m1 m2 : BranchMap) : Prop :=
  ∀ x, lookupBranches m1 x = lookupBranches m2 x

theorem bmAdd_congr {m1 m2 : BranchMap} (h : bmEquiv m1 m2)
    (k n : String) : bmEquiv (bmAdd m1 k n) (bmAdd m2 k n) := by
  intro x
  rw [lookupBranches_bmAdd, lookupBranches_bmAdd, h x, h k]

theorem bmAdd_swap (m : BranchMap) (k1 n1 k2 n2 : String) :
    bmEquiv (bmAdd (bmAdd m k1 n1) k2 n2)
      (bmAdd (bmAdd m k2 n2) k1 n1) := by
  intro x
  by_cases h12 : k1 = k2 <;> by_cases hx2 : x = k2 <;>
    by_cases hx1 : x = k1 <;>
    simp_all [lookupBranches_bmAdd, Finset.Insert.comm]

/-- The per-file update of the branch map (body of the
`get_local_branches` loop on an existing file). -/
def glbStep (cwd gitdir : String) (m : BranchMap) (f : String × String) :
    BranchMap :=
  bmAdd m (pyStrip f.2) (branch_name_of cwd (gitdir ++ "/refs/heads/" ++ f.1))

theorem glb_go_all_some (cwd gitdir : String) :
    ∀ (files : List (String × String)) (acc : BranchMap),
    get_local_branches_go cwd gitdir
      (files.map (fun f => (f.1, some f.2))) acc =
      .ok (files.foldl (glbStep cwd gitdir) acc) := by
  intro files
  induction files with
  | nil => intro acc; rfl
  | cons f rest ih =>
    intro acc
    obtain ⟨rel, content⟩ := f
    rw [List.map_cons, get_local_branches_go, List.foldl_cons]
    exact ih _

theorem foldl_glbStep_congr (cwd gitdir : String) :
    ∀ (l : List (String × String)) {m1 m2 : BranchMap}, bmEquiv m1 m2 →
    bmEquiv (l.foldl (glbStep cwd gitdir) m1)
      (l.foldl (glbStep cwd gitdir) m2) := by
  intro l
  induction l with
  | nil => intro m1 m2 h; exact h
  | cons f rest ih =>
    intro m1 m2 h
    rw [List.foldl_cons, List.foldl_cons]
    exact ih (bmAdd_congr h _ _)

theorem foldl_glbStep_perm (cwd gitdir : String)
    {l1 l2 : List (String × String)} (hperm : l1.Perm l2) :
    ∀ m : BranchMap, bmEquiv (l1.foldl (glbStep cwd gitdir) m)
      (l2.foldl (glbStep cwd gitdir) m) := by
  induction hperm with
  | nil => intro m x; rfl
  | cons f t ih =>
    intro m
    rw [List.foldl_cons, List.foldl_cons]
    exact ih _
  | swap f1 f2 t =>
    intro m
    rw [List.foldl_cons, List.foldl_cons, List.foldl_cons, List.foldl_cons]
    exact foldl_glbStep_congr cwd gitdir t (bmAdd_swap m _ _ _ _)
  | trans h12 h23 ih12 ih23 =>
    intro m x
    exact (ih12 m x).trans (ih23 m x)

theorem setList_sorted (s : Finset String) :
    (setList s).Sorted (· ≤ ·) := by
  rcases s with ⟨val, nd⟩
  induction val using Quot.inductionOn with
  | h l => exact List.sorted_insertionSort _ l

/-- C9: for a commit whose hash has a BranchMap entry the printed line
is the hash, one space, and the branch names in ascending lexicographic
order joined by single spaces; and the line is identical for any two
discovery orders of the same ref files. -/
theorem branch_annotation_deterministic (cwd gitdir : String)
    (files1 files2 : List (String × String)) (hperm : files1.Perm files2)
    (bm1 bm2 : BranchMap)
    (h1 : get_local_branches cwd gitdir
      (files1.map (fun f => (f.1, some f.2))) = .ok bm1)
    (h2 : get_local_branches cwd gitdir
      (files2.map (fun f => (f.1, some f.2))) = .ok bm2)
    (h : String) :
    commitLine bm1 h = commitLine bm2 h ∧
    (∀ names, lookupBranches bm1 h = some names →
      commitLine bm1 h =
        h ++ " " ++ String.intercalate " " (setList names) ∧
      (setList names).Sorted (· ≤ ·)) := by
  rw [get_local_branches, glb_go_all_some] at h1 h2
  have hbm1 : bm1 = files1.foldl (glbStep cwd gitdir) [] :=
    (Option.some_injective _ (by simpa using h1)).symm
  have hbm2 : bm2 = files2.foldl (glbStep cwd gitdir) [] :=
    (Option.some_injective _ (by simpa using h2)).symm
  have hequiv : bmEquiv bm1 bm2 := by
    rw [hbm1, hbm2]
    exact foldl_glbStep_perm cwd gitdir hperm []
  constructor
  · rw [commitLine, commitLine, hequiv h]
  · intro names hnames
    rw [commitLine, hnames]
    exact ⟨rfl, setList_sorted names⟩

/-- Witness for `branch_annotation_deterministic`: two branches at the
same commit discovered in either order print the same sorted
annotation. -/
theorem branch_annotation_deterministic_witness :
    commitLine [("a1", {"dev", "main"})] "a1" =
      commitLine [("a1", {"main", "dev"})] "a1" ∧
    commitLine [("a1", {"dev", "main"})] "a1" =
      "a1" ++ " " ++ String.intercalate " " (setList {"dev", "main"}) ∧
    (setList ({"dev", "main"} : Finset String)).Sorted (· ≤ ·) := by
  have h := branch_annotation_deterministic "/repo" "/repo/.git"
    [("main", "a1"), ("dev", "a1")] [("dev", "a1"), ("main", "a1")]
    (List.Perm.swap ("dev", "a1") ("main", "a1") [])
    [("a1", {"dev", "main"})] [("a1", {"main", "dev"})]
    (by rfl) (by rfl) "a1"
  exact ⟨h.1, (h.2 {"dev", "main"} (by rfl)).1,
    (h.2 {"dev", "main"} (by rfl)).2⟩

/-! ### The root-commit discontinuity of the printer (C10) -/

theorem printLoop_cons_cons (g : Graph) (bm : BranchMap) (disc : Bool)
    (c next : String) (rest : List String) :
    printLoop g bm disc (c :: next :: rest) =
      if next ∈ (lookupNode g c).parents then
        (if disc then ["=" ++ joinSet (lookupNode g c).children] else []) ++
          [commitLine bm c] ++ printLoop g bm false (next :: rest)
      else
        (if disc then ["=" ++ joinSet (lookupNode g c).children] else []) ++
          [commitLine bm c] ++
          [joinSet (lookupNode g c).parents ++ "=", ""] ++
          printLoop g bm true (next :: rest) := rfl

/-- C10: a root commit (empty parent set) printed at any non-final
position always sets the discontinuity and emits the trailing separator
line consisting of `=` with nothing before it, followed by a blank line
— the empty parent list can never mention the commit itself. -/
theorem root_commit_discontinuity (g : Graph) (bm : BranchMap)
    (disc : Bool) (c next : String) (rest : List String)
    (hroot : (lookupNode g c).parents = ∅) :
    printLoop g bm disc (c :: next :: rest) =
      (if disc then ["=" ++ joinSet (lookupNode g c).children] else []) ++
      [commitLine bm c] ++ ["=", ""] ++ printLoop g bm true (next :: rest) := by
  rw [printLoop_cons_cons,
    if_neg (by rw [hroot]; exact Finset.not_mem_empty next), hroot]
  rfl

/-- A graph with the isolated root `r` used by the C10 witness. -/
def gRoot : Graph := [("r", ⟨"r", ∅, ∅⟩), ("x", ⟨"x", ∅, ∅⟩)]

/-- Witness for `root_commit_discontinuity`: printing root `r` before
`x` emits the bare `=` separator and the blank line. -/
theorem root_commit_discontinuity_witness :
    printLoop gRoot [] false ["r", "x"] =
      (if false then ["=" ++ joinSet (lookupNode gRoot "r").children]
        else []) ++
      [commitLine [] "r"] ++ ["=", ""] ++ printLoop gRoot [] true ["x"] :=
  root_commit_discontinuity gRoot [] false "r" "x" [] (by decide)
